import Mathlib

/-!
Verification of the alcelin utility library against its specification.

The development shallowly embeds the relevant parts of the C++ sources:

* `alcelin_file_utilities.hpp` — the "SD format" chunk codec.  A chunk
  (`sd_chunk`, a vector of unsigned bytes) is modelled as a `List Nat`
  whose entries are byte values.  A trivially copyable value of a
  `w`-byte unsigned integer type is modelled as a natural number below
  `256 ^ w`; `memcpy` of its object representation is modelled as the
  little-endian byte decomposition, matching the behaviour of the code
  on the little-endian hosts it is compiled for.  Streams are modelled
  as the list of bytes remaining to be read, with `std::istream::read`
  zero-filling the unwritten tail of the destination buffer on a short
  read (the buffer is value-initialised before the read).
* `alcelin_container_utilities.hpp` — the sequence algorithms
  (`combine`, `repeat`, `subordinate`, `filter_out_seq`, `split_seq`,
  `split_occ`, `split_occ_seq`) and the boundless-access containers.
  Containers are modelled as `List`s; iterator positions as indices.
  The `while` loops of `split_occ` and `split_occ_seq` are embedded
  with an explicit fuel parameter (the loops have no a-priori
  structural termination measure: an empty pattern makes the C++ loop
  diverge); every entry point passes fuel `length + 1`, which is shown
  sufficient whenever the C++ loop terminates.
* `long double` arithmetic in the fractional `repeat` overload is
  modelled by exact rational arithmetic (`ℚ`): `std::modf` splits a
  clamped non-negative number into integer and fractional part, and
  `std::floor` is `Rat.floor`.
-/

namespace alcelin

/-! ### File utilities: the SD chunk codec (`alcelin_file_utilities.hpp`) -/

/-- Little-endian byte decomposition of `v` into exactly `w` bytes; this is
the object representation that `std::memcpy` copies out of a `w`-byte
unsigned integer on a little-endian host. -/
def toBytesLE : Nat → Nat → List Nat
  | 0, _ => []
  | w + 1, v => v % 256 :: toBytesLE w (v / 256)

/-- Recomposition of a little-endian byte list into a natural number; this is
what `std::memcpy` of the byte buffer into a `w`-byte unsigned integer
produces on a little-endian host. -/
def fromBytesLE : List Nat → Nat
  | [] => 0
  | b :: t => b + 256 * fromBytesLE t

/-- Embedding of `alcelin::file::to_sd_chunk` for a `w`-byte unsigned
integer value `v`: a chunk of `sizeof(type) = w` bytes holding the value's
byte representation. -/
def to_sd_chunk (w v : Nat) : List Nat :=
  toBytesLE w v

/-- Embedding of `alcelin::file::from_sd_chunk` for a `w`-byte unsigned
integer target type: throws `std::invalid_argument` when the chunk size
does not match `sizeof(type)`, otherwise `memcpy`s the chunk's bytes into
a value. -/
def from_sd_chunk (w : Nat) (chunk : List Nat) : Except String Nat :=
  if chunk.length ≠ w then
    Except.error "SD chunk size does not match type size"
  else
    Except.ok (fromBytesLE chunk)

theorem length_toBytesLE (w v : Nat) : (toBytesLE w v).length = w := by
  induction w generalizing v with
  | zero => rfl
  | succ w ih => simp [toBytesLE, ih]

theorem fromBytesLE_toBytesLE (w v : Nat) :
    fromBytesLE (toBytesLE w v) = v % 256 ^ w := by
  induction w generalizing v with
  | zero => simp [toBytesLE, fromBytesLE, Nat.mod_one]
  | succ w ih =>
      rw [pow_succ, mul_comm (256 ^ w) 256, Nat.mod_mul]
      simp [toBytesLE, fromBytesLE, ih]

/-- Helper: the encode/decode round trip on chunks, used by the stream
round-trip proofs below. -/
theorem from_to_sd_chunk (w v : Nat) (h : v < 256 ^ w) :
    from_sd_chunk w (to_sd_chunk w v) = Except.ok v := by
  unfold from_sd_chunk to_sd_chunk
  rw [if_neg (by simp [length_toBytesLE])]
  rw [fromBytesLE_toBytesLE, Nat.mod_eq_of_lt h]

/-!  Streams.  `read_bytes n s` models `input.read(buf, n)` on a buffer of
`n` value-initialised bytes: it fills the buffer with the next `n` bytes of
the stream, leaving zeroes where the stream ran short, and consumes the
read bytes. -/

/-- Model of `std::istream::read` into a zero-initialised buffer of `n`
bytes: the filled buffer together with the rest of the stream. -/
def read_bytes (n : Nat) (s : List Nat) : List Nat × List Nat :=
  (s.take n ++ List.replicate (n - s.length) 0, s.drop n)

/-- Embedding of `alcelin::file::read_chunk`: read `sizeof(std::size_t) = 8`
bytes as the size, then read that many bytes as the chunk. -/
def read_chunk (s : List Nat) : List Nat × List Nat :=
  let r := read_bytes 8 s
  read_bytes (fromBytesLE r.1) r.2

/-- Embedding of `alcelin::file::write_chunk`: the 8-byte size prefix
followed by the chunk's bytes. -/
def write_chunk (chunk : List Nat) : List Nat :=
  toBytesLE 8 chunk.length ++ chunk

/-- Embedding of `alcelin::file::read_data` for a `w`-byte unsigned integer
type: read a chunk, then convert it. -/
def read_data (w : Nat) (s : List Nat) : Except String Nat × List Nat :=
  let r := read_chunk s
  (from_sd_chunk w r.1, r.2)

/-- Embedding of `alcelin::file::write_data` for a `w`-byte unsigned integer
value: convert the value to a chunk and write it. -/
def write_data (w v : Nat) : List Nat :=
  write_chunk (to_sd_chunk w v)

theorem read_bytes_exact (n : Nat) (l s : List Nat) (h : l.length = n) :
    read_bytes n (l ++ s) = (l, s) := by
  subst h
  have h0 : l.length - (l ++ s).length = 0 := by
    simp [List.length_append]
  simp [read_bytes, h0, List.take_left, List.drop_left]

theorem read_chunk_write_chunk (c rest : List Nat) (h : c.length < 256 ^ 8) :
    read_chunk (write_chunk c ++ rest) = (c, rest) := by
  unfold read_chunk write_chunk
  rw [List.append_assoc, read_bytes_exact 8 _ _ (length_toBytesLE 8 c.length)]
  simp only [fromBytesLE_toBytesLE, Nat.mod_eq_of_lt h,
    read_bytes_exact c.length c rest rfl]

/-- C1: for every trivially-copyable value `v` of a `w`-byte unsigned
integer type, `to_sd_chunk v` is a chunk of exactly `sizeof(type) = w`
bytes holding `v`'s byte representation, and decoding it back with
`from_sd_chunk` yields `v` again. -/
theorem C1_sd_chunk_roundtrip (w v : Nat) (h : v < 256 ^ w) :
    (to_sd_chunk w v).length = w ∧
    from_sd_chunk w (to_sd_chunk w v) = Except.ok v :=
  ⟨length_toBytesLE w v, from_to_sd_chunk w v h⟩

theorem C1_sd_chunk_roundtrip_witness :
    2189263 < 256 ^ 4 ∧
    ((to_sd_chunk 4 2189263).length = 4 ∧
      from_sd_chunk 4 (to_sd_chunk 4 2189263) = Except.ok 2189263) :=
  ⟨by decide, C1_sd_chunk_roundtrip 4 2189263 (by decide)⟩

/-- C2: decoding a chunk `c` into a `w`-byte unsigned integer type fails
with the size-mismatch error exactly when `c`'s byte length differs from
`sizeof(type) = w`; when the lengths agree it returns, without error, the
value reconstructed from `c`'s bytes. -/
theorem C2_from_sd_chunk_size_mismatch (w : Nat) (c : List Nat) :
    ((∃ e, from_sd_chunk w c = Except.error e) ↔ c.length ≠ w) ∧
    (c.length = w → from_sd_chunk w c = Except.ok (fromBytesLE c)) := by
  constructor
  · constructor
    · rintro ⟨e, he⟩ hlen
      rw [from_sd_chunk, if_neg (by simp [hlen])] at he
      exact Except.noConfusion he
    · intro hlen
      exact ⟨_, by rw [from_sd_chunk, if_pos hlen]⟩
  · intro hlen
    rw [from_sd_chunk, if_neg (by simp [hlen])]

theorem C2_from_sd_chunk_size_mismatch_witness :
    (∃ e, from_sd_chunk 2 [7] = Except.error e) ∧
    from_sd_chunk 1 [7] = Except.ok 7 := by
  refine ⟨(C2_from_sd_chunk_size_mismatch 2 [7]).1.mpr (by decide), ?_⟩
  have h := (C2_from_sd_chunk_size_mismatch 1 [7]).2 (by decide)
  simpa [fromBytesLE] using h

/-- C3: `write_chunk` emits an 8-byte length prefix equal to the payload's
byte length followed by the payload, and `read_chunk` at the same stream
position returns an equal chunk with the stream advanced past the record;
consequently writing two values with `write_data` and reading them back in
order with `read_data` yields the original values. -/
theorem C3_stream_roundtrip :
    (∀ (c rest : List Nat), c.length < 256 ^ 8 →
        write_chunk c = toBytesLE 8 c.length ++ c ∧
        read_chunk (write_chunk c ++ rest) = (c, rest)) ∧
    (∀ (w v1 v2 : Nat) (rest : List Nat),
        v1 < 256 ^ w → v2 < 256 ^ w → w < 256 ^ 8 →
        (read_data w (write_data w v1 ++ (write_data w v2 ++ rest))).1
            = Except.ok v1 ∧
        (read_data w (write_data w v1 ++ (write_data w v2 ++ rest))).2
            = write_data w v2 ++ rest ∧
        read_data w (write_data w v2 ++ rest) = (Except.ok v2, rest)) := by
  have hlen : ∀ w v : Nat, (to_sd_chunk w v).length = w := length_toBytesLE
  refine ⟨fun c rest h => ⟨rfl, read_chunk_write_chunk c rest h⟩, ?_⟩
  intro w v1 v2 rest h1 h2 hw
  have r1 : read_chunk (write_data w v1 ++ (write_data w v2 ++ rest))
      = (to_sd_chunk w v1, write_data w v2 ++ rest) :=
    read_chunk_write_chunk _ _ (by rw [hlen]; exact hw)
  have r2 : read_chunk (write_data w v2 ++ rest) = (to_sd_chunk w v2, rest) :=
    read_chunk_write_chunk _ _ (by rw [hlen]; exact hw)
  simp only [read_data, r1, r2]
  simp [from_to_sd_chunk w v1 h1, from_to_sd_chunk w v2 h2]

theorem C3_stream_roundtrip_witness :
    (read_data 4 (write_data 4 2189263 ++ (write_data 4 3786231 ++ []))).1
        = Except.ok 2189263 ∧
    read_data 4 (write_data 4 3786231 ++ []) = (Except.ok 3786231, []) := by
  have h := C3_stream_roundtrip.2 4 2189263 3786231 []
    (by decide) (by decide) (by decide)
  exact ⟨h.1, h.2.2⟩

/-! ### Container utilities (`alcelin_container_utilities.hpp`) -/

/-- Embedding of `alcelin::cu::combine`: copy the two containers into one. -/
def combine {α : Type} (ctr_a ctr_b : List α) : List α :=
  ctr_a ++ ctr_b

/-- Embedding of `alcelin::cu::subordinate`: the elements of positions
`[first, last)`. -/
def subordinate {α : Type} (ctr : List α) (first last : Nat) : List α :=
  (ctr.take last).drop first

/-- Embedding of the `std::size_t` overload of `alcelin::cu::repeat`:
`std::views::repeat(ctr, n) | std::views::join`. -/
def cu_repeat {α : Type} (ctr : List α) (n : Nat) : List α :=
  (List.replicate n ctr).flatten

/-- Embedding of the signed integral overloads of `alcelin::cu::repeat`
(`int`, `long`, `long long`): clamp a negative count to `0`, then repeat. -/
def cu_repeat_int {α : Type} (ctr : List α) (n : Int) : List α :=
  let n' := if n < 0 then 0 else n
  cu_repeat ctr n'.toNat

/-- Embedding of the `long double` overload of `alcelin::cu::repeat`, with
`long double` arithmetic modelled by exact rational arithmetic: clamp a
negative count to `0`, split with `std::modf` into integer part and
fractional part (for a non-negative number the integer part is the floor),
repeat the container the integer part many times, and append the
subordinate container of the first `floor(f_part * size)` elements. -/
def cu_repeat_rat {α : Type} (ctr : List α) (n : ℚ) : List α :=
  let n' := if n < 0 then 0 else n
  let i_part : Int := Rat.floor n'
  let f_part : ℚ := n' - (i_part : ℚ)
  let regular_repeat : Nat := i_part.toNat
  let sub_size : Nat := (Rat.floor (f_part * (ctr.length : ℚ))).toNat
  combine (cu_repeat ctr regular_repeat) (subordinate ctr 0 sub_size)

theorem cu_repeat_zero {α : Type} (ctr : List α) : cu_repeat ctr 0 = [] := rfl

theorem cu_repeat_succ {α : Type} (ctr : List α) (n : Nat) :
    cu_repeat ctr (n + 1) = ctr ++ cu_repeat ctr n := by
  simp [cu_repeat, List.replicate_succ]

theorem length_cu_repeat {α : Type} (ctr : List α) (n : Nat) :
    (cu_repeat ctr n).length = n * ctr.length := by
  induction n with
  | zero => simp [cu_repeat]
  | succ n ih =>
      rw [cu_repeat_succ, List.length_append, ih, Nat.succ_mul,
        Nat.add_comm ctr.length (n * ctr.length)]

theorem rat_floor_eq_intFloor (q : ℚ) : Rat.floor q = ⌊q⌋ := by
  rw [Rat.floor_def', Rat.floor_def]

/-- C7: the integral `repeat` produces `n` concatenated copies of the
container, of length `n * len(ctr)`; `n = 0` yields the empty result, and
a negative signed count is clamped to `0` rather than raising an error. -/
theorem C7_repeat_integral :
    (∀ (α : Type) (ctr : List α) (n : Nat),
        (cu_repeat ctr n).length = n * ctr.length) ∧
    (∀ (α : Type) (ctr : List α), cu_repeat ctr 0 = []) ∧
    (∀ (α : Type) (ctr : List α) (n : Nat),
        cu_repeat ctr (n + 1) = ctr ++ cu_repeat ctr n) ∧
    (∀ (α : Type) (ctr : List α) (n : Int), n < 0 → cu_repeat_int ctr n = []) ∧
    (∀ (α : Type) (ctr : List α) (n : Int), 0 ≤ n →
        cu_repeat_int ctr n = cu_repeat ctr n.toNat) := by
  refine ⟨fun α ctr n => length_cu_repeat ctr n,
    fun α ctr => rfl,
    fun α ctr n => cu_repeat_succ ctr n,
    fun α ctr n h => ?_, fun α ctr n h => ?_⟩
  · simp [cu_repeat_int, if_pos h, cu_repeat]
  · simp [cu_repeat_int, if_neg (not_lt.mpr h)]

theorem C7_repeat_integral_witness :
    ((-3 : Int) < 0 ∧ cu_repeat_int [1, 2] (-3) = []) ∧
    (0 ≤ (2 : Int) ∧ cu_repeat_int [1, 2] 2 = cu_repeat [1, 2] (2 : Int).toNat) :=
  ⟨⟨by decide, C7_repeat_integral.2.2.2.1 Nat [1, 2] (-3) (by decide)⟩,
   ⟨by decide, C7_repeat_integral.2.2.2.2 Nat [1, 2] 2 (by decide)⟩⟩

/-- C6: the fractional `repeat` on a non-negative count `n` with integer
part `i` and fractional part `f` equals `repeat ctr i` followed by the
first `floor(f * len(ctr))` elements of the container; a negative count is
first clamped to `0`; and the spec's concrete scenario
`repeat([1,2,3,4,5], 3.6)` gives three copies followed by `[1,2,3]`. -/
theorem C6_repeat_fractional :
    (∀ (α : Type) (ctr : List α) (n : ℚ), 0 ≤ n →
        cu_repeat_rat ctr n =
          cu_repeat ctr (Rat.floor n).toNat ++
            ctr.take ((Rat.floor ((n - ((Rat.floor n : Int) : ℚ)) *
              (ctr.length : ℚ))).toNat)) ∧
    (∀ (α : Type) (ctr : List α) (n : ℚ), n < 0 →
        cu_repeat_rat ctr n = cu_repeat_rat ctr 0) ∧
    cu_repeat_rat [1, 2, 3, 4, 5] (18 / 5 : ℚ) =
      [1, 2, 3, 4, 5, 1, 2, 3, 4, 5, 1, 2, 3, 4, 5, 1, 2, 3] := by
  have main : ∀ (α : Type) (ctr : List α) (n : ℚ), 0 ≤ n →
      cu_repeat_rat ctr n =
        cu_repeat ctr (Rat.floor n).toNat ++
          ctr.take ((Rat.floor ((n - ((Rat.floor n : Int) : ℚ)) *
            (ctr.length : ℚ))).toNat) := by
    intro α ctr n h
    simp [cu_repeat_rat, if_neg (not_lt.mpr h), combine, subordinate]
  refine ⟨main, fun α ctr n h => by simp [cu_repeat_rat, if_pos h], ?_⟩
  rw [main Nat [1, 2, 3, 4, 5] (18 / 5 : ℚ) (by norm_num)]
  have e1 : Rat.floor (18 / 5 : ℚ) = 3 := by
    rw [rat_floor_eq_intFloor]
    norm_num
  rw [e1]
  have e2 : Rat.floor (((18 / 5 : ℚ) - ((3 : Int) : ℚ)) *
      (([1, 2, 3, 4, 5] : List Nat).length : ℚ)) = 3 := by
    rw [rat_floor_eq_intFloor]
    norm_num
  rw [e2]
  decide

theorem C6_repeat_fractional_witness :
    (0 ≤ (18 / 5 : ℚ) ∧
      cu_repeat_rat [1, 2, 3, 4, 5] (18 / 5 : ℚ) =
        cu_repeat [1, 2, 3, 4, 5] (Rat.floor (18 / 5 : ℚ)).toNat ++
          [1, 2, 3, 4, 5].take
            ((Rat.floor (((18 / 5 : ℚ) - ((Rat.floor (18 / 5 : ℚ) : Int) : ℚ)) *
              (([1, 2, 3, 4, 5] : List Nat).length : ℚ))).toNat)) ∧
    ((-1 : ℚ) < 0 ∧
      cu_repeat_rat ([1, 2] : List Nat) (-1 : ℚ) = cu_repeat_rat [1, 2] 0) :=
  ⟨⟨by norm_num, C6_repeat_fractional.1 Nat [1, 2, 3, 4, 5] (18 / 5 : ℚ)
      (by norm_num)⟩,
   ⟨by norm_num, C6_repeat_fractional.2.1 Nat [1, 2] (-1 : ℚ) (by norm_num)⟩⟩

/-- Model of `std::search(it, end, pattern.begin(), pattern.end())` on the
suffix `l`: the offset from `it` of the first position where the whole
pattern matches, or `l.length` (the offset of `end`) when there is none.
An empty pattern matches immediately at offset `0`. -/
def search {α : Type} [DecidableEq α] : List α → List α → Nat
  | [], _ => 0
  | a :: t, pattern =>
      if (a :: t).take pattern.length = pattern then 0
      else search t pattern + 1

/-- Model of `std::find_first_of(it, end, values.begin(), values.end())` on
the suffix `l`: the offset of the first element that is a member of
`values`, or `l.length` when there is none. -/
def find_first_of {α : Type} [DecidableEq α] : List α → List α → Nat
  | [], _ => 0
  | a :: t, values => if a ∈ values then 0 else find_first_of t values + 1

/-- Loop of `std::ranges::split_view` (used by `alcelin::cu::split_seq` and
`alcelin::cu::filter_out_seq` through `std::views::split`): cut at the
first occurrence of the pattern and continue after it; when the pattern
does not occur the remainder is the last piece.  `fuel` bounds the number
of iterations (an empty pattern makes the loop unproductive). -/
def splitv_go {α : Type} [DecidableEq α] (pattern : List α) :
    Nat → List α → List (List α)
  | 0, _ => []
  | fuel + 1, l =>
    let p := search l pattern
    if p = l.length then [l]
    else l.take p :: splitv_go pattern fuel (l.drop (p + pattern.length))

/-- Model of `std::views::split(ctr, pattern)` collected into a nested
container: an empty input range yields no pieces at all; otherwise pieces
are produced by `splitv_go` (a trailing match yields a trailing empty
piece). -/
def splitv {α : Type} [DecidableEq α] (ctr pattern : List α) : List (List α) :=
  if ctr.isEmpty then [] else splitv_go pattern (ctr.length + 1) ctr

/-- Embedding of `alcelin::cu::split_seq`:
`std::views::split(ctr, pattern) | std::ranges::to<nested>`. -/
def split_seq {α : Type} [DecidableEq α] (ctr pattern : List α) : List (List α) :=
  splitv ctr pattern

/-- Embedding of `alcelin::cu::filter_out_seq`:
`std::views::split(ctr, pattern) | std::views::join | std::ranges::to`. -/
def filter_out_seq {α : Type} [DecidableEq α] (ctr pattern : List α) : List α :=
  (splitv ctr pattern).flatten

/-- Loop of `alcelin::cu::split_occ`: find the first occurrence of any of
the separator values, emit the piece before it, and continue after the
single consumed separator element.  `fuel` bounds the number of
iterations. -/
def split_occ_go {α : Type} [DecidableEq α] (values : List α) :
    Nat → List α → List (List α)
  | 0, _ => []
  | fuel + 1, l =>
    if l.isEmpty then []
    else
      let next := find_first_of l values
      let rest := l.drop next
      l.take next :: (if rest.isEmpty then [] else split_occ_go values fuel (rest.drop 1))

/-- Embedding of `alcelin::cu::split_occ`. -/
def split_occ {α : Type} [DecidableEq α] (ctr values : List α) : List (List α) :=
  split_occ_go values (ctr.length + 1) ctr

theorem find_first_of_cons {α : Type} [DecidableEq α] (a : α) (t values : List α) :
    find_first_of (a :: t) values =
      if a ∈ values then 0 else find_first_of t values + 1 := rfl

theorem find_first_of_le {α : Type} [DecidableEq α] (l values : List α) :
    find_first_of l values ≤ l.length := by
  induction l with
  | nil => simp [find_first_of]
  | cons a t ih =>
      rw [find_first_of_cons]
      split
      · simp
      · simpa using ih

theorem split_occ_go_nil {α : Type} [DecidableEq α] (values : List α) (fuel : Nat) :
    split_occ_go values (fuel + 1) ([] : List α) = [] := by
  simp [split_occ_go]

theorem split_occ_go_cons {α : Type} [DecidableEq α] (values : List α) (fuel : Nat)
    (a : α) (t : List α) :
    split_occ_go values (fuel + 1) (a :: t) =
      (a :: t).take (find_first_of (a :: t) values) ::
        (if ((a :: t).drop (find_first_of (a :: t) values)).isEmpty then []
         else split_occ_go values fuel
           (((a :: t).drop (find_first_of (a :: t) values)).drop 1)) := by
  simp [split_occ_go]

theorem split_occ_go_fuel {α : Type} [DecidableEq α] (values : List α) :
    ∀ (fuel : Nat) (l : List α), l.length < fuel →
      split_occ_go values fuel l = split_occ_go values (l.length + 1) l := by
  intro fuel
  induction fuel using Nat.strong_induction_on with
  | _ fuel ih =>
    intro l hl
    match fuel, hl with
    | fuel + 1, hl =>
      cases l with
      | nil => rw [split_occ_go_nil, split_occ_go_nil]
      | cons a t =>
        rw [split_occ_go_cons, List.length_cons, split_occ_go_cons]
        have hlt : t.length < fuel := by
          simpa [Nat.lt_succ_iff] using hl
        cases hr : ((a :: t).drop (find_first_of (a :: t) values)).isEmpty with
        | true => simp
        | false =>
          simp only [Bool.false_eq_true, if_false]
          set D := (((a :: t).drop (find_first_of (a :: t) values)).drop 1) with hD
          have hDlen : D.length < t.length + 1 := by
            rw [hD]
            simp only [List.length_drop, List.length_cons]
            omega
          have h1 : split_occ_go values fuel D = split_occ_go values (D.length + 1) D :=
            ih fuel (Nat.lt_succ_self fuel) D (by omega)
          have h2 : split_occ_go values (t.length + 1) D
              = split_occ_go values (D.length + 1) D :=
            ih (t.length + 1) (by omega) D hDlen
          rw [h1, h2]

theorem search_cons {α : Type} [DecidableEq α] (a : α) (t pattern : List α) :
    search (a :: t) pattern =
      if (a :: t).take pattern.length = pattern then 0
      else search t pattern + 1 := rfl

theorem search_le {α : Type} [DecidableEq α] (l pattern : List α) :
    search l pattern ≤ l.length := by
  induction l with
  | nil => simp [search]
  | cons a t ih =>
      rw [search_cons]
      split
      · simp
      · simpa using ih

theorem splitv_go_succ {α : Type} [DecidableEq α] (pattern : List α)
    (fuel : Nat) (l : List α) :
    splitv_go pattern (fuel + 1) l =
      if search l pattern = l.length then [l]
      else l.take (search l pattern) ::
        splitv_go pattern fuel (l.drop (search l pattern + pattern.length)) := by
  simp [splitv_go]

theorem splitv_go_fuel {α : Type} [DecidableEq α] (pattern : List α)
    (hp : pattern ≠ []) :
    ∀ (fuel : Nat) (l : List α), l.length < fuel →
      splitv_go pattern fuel l = splitv_go pattern (l.length + 1) l := by
  intro fuel
  induction fuel using Nat.strong_induction_on with
  | _ fuel ih =>
    intro l hl
    match fuel, hl with
    | fuel + 1, hl =>
      rw [splitv_go_succ, splitv_go_succ]
      by_cases hs : search l pattern = l.length
      · rw [if_pos hs, if_pos hs]
      · rw [if_neg hs, if_neg hs]
        have hslt : search l pattern < l.length :=
          lt_of_le_of_ne (search_le l pattern) hs
        have hplen : 1 ≤ pattern.length :=
          Nat.succ_le_of_lt (List.length_pos.mpr hp)
        set D := l.drop (search l pattern + pattern.length) with hD
        have hDlen : D.length < l.length := by
          rw [hD]
          simp only [List.length_drop]
          omega
        have h1 : splitv_go pattern fuel D = splitv_go pattern (D.length + 1) D :=
          ih fuel (Nat.lt_succ_self fuel) D (by omega)
        have h2 : splitv_go pattern l.length D
            = splitv_go pattern (D.length + 1) D :=
          ih l.length (by omega) D hDlen
        rw [h1, h2]

theorem flatten_go_eq_filter {α : Type} [DecidableEq α] (pattern : List α)
    (hp : pattern ≠ []) (fuel : Nat) (s : List α) (h : s.length < fuel) :
    (splitv_go pattern fuel s).flatten = filter_out_seq s pattern := by
  cases s with
  | nil =>
      match fuel, h with
      | fuel + 1, _ =>
        rw [splitv_go_succ]
        simp [search, filter_out_seq, splitv]
  | cons a t =>
      rw [filter_out_seq, splitv, if_neg (by simp),
        splitv_go_fuel pattern hp fuel (a :: t) h]

theorem filter_out_seq_no_occurrence {α : Type} [DecidableEq α]
    (s pattern : List α) (h : search s pattern = s.length) :
    filter_out_seq s pattern = s := by
  cases s with
  | nil => rfl
  | cons a t =>
      rw [filter_out_seq, splitv, if_neg (by simp), splitv_go_succ, if_pos h]
      simp

theorem filter_out_seq_step {α : Type} [DecidableEq α]
    (s pattern : List α) (hp : pattern ≠ [])
    (h : search s pattern < s.length) :
    filter_out_seq s pattern =
      s.take (search s pattern) ++
        filter_out_seq (s.drop (search s pattern + pattern.length)) pattern := by
  cases s with
  | nil => simp at h
  | cons b t =>
      rw [filter_out_seq, splitv, if_neg (by simp), splitv_go_succ,
        if_neg (by omega)]
      rw [List.flatten_cons]
      rw [flatten_go_eq_filter pattern hp (b :: t).length _ (by
        simp only [List.length_drop]
        have := List.length_pos.mpr hp
        simp only [List.length_cons] at h ⊢
        omega)]

theorem filter_out_seq_cons_match {α : Type} [DecidableEq α]
    (s pattern : List α) (hp : pattern ≠ [])
    (h : s.take pattern.length = pattern) :
    filter_out_seq s pattern = filter_out_seq (s.drop pattern.length) pattern := by
  have hs : s ≠ [] := by
    intro he
    apply hp
    rw [he] at h
    simpa using h.symm
  have hsearch : search s pattern = 0 := by
    cases s with
    | nil => exact absurd rfl hs
    | cons a t => rw [search_cons, if_pos h]
  have hstep := filter_out_seq_step s pattern hp (by
    rw [hsearch]
    exact List.length_pos.mpr hs)
  rw [hsearch] at hstep
  simpa using hstep

theorem filter_out_seq_cons_nomatch {α : Type} [DecidableEq α]
    (a : α) (s pattern : List α) (hp : pattern ≠ [])
    (h : ¬ (a :: s).take pattern.length = pattern) :
    filter_out_seq (a :: s) pattern = a :: filter_out_seq s pattern := by
  have hsearch : search (a :: s) pattern = search s pattern + 1 := by
    rw [search_cons, if_neg h]
  by_cases hno : search s pattern = s.length
  · rw [filter_out_seq_no_occurrence (a :: s) pattern (by
      rw [hsearch, hno, List.length_cons]),
      filter_out_seq_no_occurrence s pattern hno]
  · have hslt : search s pattern < s.length :=
      lt_of_le_of_ne (search_le s pattern) hno
    have houter := filter_out_seq_step (a :: s) pattern hp (by
      rw [hsearch]
      simp only [List.length_cons]
      omega)
    have hinner := filter_out_seq_step s pattern hp hslt
    rw [houter, hinner, hsearch]
    have htake : (a :: s).take (search s pattern + 1)
        = a :: s.take (search s pattern) := rfl
    have hdrop : (a :: s).drop (search s pattern + 1 + pattern.length)
        = s.drop (search s pattern + pattern.length) := by
      rw [Nat.add_right_comm]
      rfl
    rw [htake, hdrop, List.cons_append]

/-- C8: `filter_out_seq` equals the concatenation of the pieces of
`split_seq` (both are built on `std::views::split`), and it removes every
non-overlapping contiguous occurrence of the pattern scanning left to
right: an occurrence at the front is dropped and scanning continues past
it, a non-matching front element is kept, and the test scenario removes
`[5,6,7]` from `[1..10]`. -/
theorem C8_filter_out_seq_split_concat :
    (∀ (α : Type) [DecidableEq α] (s pattern : List α),
        filter_out_seq s pattern = (split_seq s pattern).flatten) ∧
    (∀ (α : Type) [DecidableEq α] (pattern : List α),
        filter_out_seq ([] : List α) pattern = []) ∧
    (∀ (α : Type) [DecidableEq α] (s pattern : List α),
        pattern ≠ [] → s.take pattern.length = pattern →
        filter_out_seq s pattern
          = filter_out_seq (s.drop pattern.length) pattern) ∧
    (∀ (α : Type) [DecidableEq α] (a : α) (s pattern : List α),
        pattern ≠ [] → ¬ (a :: s).take pattern.length = pattern →
        filter_out_seq (a :: s) pattern = a :: filter_out_seq s pattern) ∧
    filter_out_seq ([1, 2, 3, 4, 5, 6, 7, 8, 9, 10] : List Nat) [5, 6, 7]
      = [1, 2, 3, 4, 8, 9, 10] :=
  ⟨fun α _ s pattern => rfl,
   fun α _ pattern => rfl,
   fun α _ s pattern hp h => filter_out_seq_cons_match s pattern hp h,
   fun α _ a s pattern hp h => filter_out_seq_cons_nomatch a s pattern hp h,
   by decide⟩

theorem C8_filter_out_seq_split_concat_witness :
    (([5] : List Nat) ≠ [] ∧
      ([5, 1, 2] : List Nat).take ([5] : List Nat).length = [5] ∧
      filter_out_seq ([5, 1, 2] : List Nat) [5]
        = filter_out_seq (([5, 1, 2] : List Nat).drop ([5] : List Nat).length) [5]) ∧
    (([5] : List Nat) ≠ [] ∧
      ¬ (((1 : Nat) :: [2, 5]).take ([5] : List Nat).length = [5]) ∧
      filter_out_seq ((1 : Nat) :: [2, 5]) [5] = 1 :: filter_out_seq [2, 5] [5]) :=
  ⟨⟨by decide, by decide,
    C8_filter_out_seq_split_concat.2.2.1 Nat [5, 1, 2] [5]
      (by decide) (by decide)⟩,
   ⟨by decide, by decide,
    C8_filter_out_seq_split_concat.2.2.2.1 Nat 1 [2, 5] [5]
      (by decide) (by decide)⟩⟩

/-- C5: `split_occ` splits at every single element that is a member of the
separator values: the empty sequence yields no pieces, a leading separator
is consumed as exactly one element boundary (emitting the empty piece
before it), a leading non-separator is prepended to the first piece of the
tail's split, two consecutive separators produce an empty piece between
them, and the test scenario `split_occ([1..10], {4,8})` yields
`{{1,2,3},{5,6,7},{9,10}}`. -/
theorem C5_split_occ_element_boundaries :
    (∀ (α : Type) [DecidableEq α] (values : List α),
        split_occ ([] : List α) values = []) ∧
    (∀ (α : Type) [DecidableEq α] (a : α) (t values : List α), a ∈ values →
        split_occ (a :: t) values = [] :: split_occ t values) ∧
    (∀ (α : Type) [DecidableEq α] (a : α) (t values : List α), a ∉ values →
        split_occ (a :: t) values =
          (a :: (split_occ t values).headD []) :: (split_occ t values).tail) ∧
    (∀ (α : Type) [DecidableEq α] (a b : α) (t values : List α),
        a ∈ values → b ∈ values →
        split_occ (a :: b :: t) values = [] :: [] :: split_occ t values) ∧
    split_occ [1, 2, 3, 4, 5, 6, 7, 8, 9, 10] [4, 8] =
      [[1, 2, 3], [5, 6, 7], [9, 10]] := by
  have hnil : ∀ (α : Type) [DecidableEq α] (values : List α),
      split_occ ([] : List α) values = [] := by
    intro α _ values
    rfl
  have hmem : ∀ (α : Type) [DecidableEq α] (a : α) (t values : List α),
      a ∈ values → split_occ (a :: t) values = [] :: split_occ t values := by
    intro α _ a t values ha
    rw [split_occ, List.length_cons, split_occ_go_cons,
      find_first_of_cons, if_pos ha]
    simp [split_occ]
  have hnotmem : ∀ (α : Type) [DecidableEq α] (a : α) (t values : List α),
      a ∉ values →
      split_occ (a :: t) values =
        (a :: (split_occ t values).headD []) :: (split_occ t values).tail := by
    intro α _ a t values ha
    rw [split_occ, List.length_cons, split_occ_go_cons,
      find_first_of_cons, if_neg ha]
    cases t with
    | nil =>
      rw [hnil α values]
      simp [find_first_of]
    | cons b t' =>
      rw [split_occ, List.length_cons, split_occ_go_cons]
      have hdrop : (a :: b :: t').drop (find_first_of (b :: t') values + 1)
          = (b :: t').drop (find_first_of (b :: t') values) := rfl
      have htake : (a :: b :: t').take (find_first_of (b :: t') values + 1)
          = a :: (b :: t').take (find_first_of (b :: t') values) := rfl
      rw [hdrop, htake]
      simp only [List.headD_cons, List.tail_cons]
      cases hr : ((b :: t').drop (find_first_of (b :: t') values)).isEmpty with
      | true => simp
      | false =>
        simp only [Bool.false_eq_true, if_false]
        have hne : find_first_of (b :: t') values < (b :: t').length := by
          by_contra hge
          have : (b :: t').drop (find_first_of (b :: t') values) = [] :=
            List.drop_of_length_le (by omega)
          rw [this] at hr
          simp at hr
        have hlen : (((b :: t').drop (find_first_of (b :: t') values)).drop 1).length
            < t'.length + 1 := by
          simp only [List.length_drop, List.length_cons]
          omega
        rw [split_occ_go_fuel values (t'.length + 2) _ (by
          simp only [List.length_drop, List.length_cons]; omega),
          split_occ_go_fuel values (t'.length + 1) _ (by
          simp only [List.length_drop, List.length_cons]; omega)]
  refine ⟨hnil, hmem, hnotmem, ?_, by decide⟩
  intro α _ a b t values ha hb
  rw [hmem α a (b :: t) values ha, hmem α b t values hb]

theorem C5_split_occ_element_boundaries_witness :
    ((4 : Nat) ∈ [4, 8] ∧ split_occ [4, 7] [4, 8] = [] :: split_occ [7] [4, 8]) ∧
    ((7 : Nat) ∉ [4, 8] ∧
      split_occ [7, 4] [4, 8] =
        (7 :: (split_occ [4] [4, 8]).headD []) :: (split_occ [4] [4, 8]).tail) ∧
    ((4 : Nat) ∈ [4, 8] ∧ (8 : Nat) ∈ [4, 8] ∧
      split_occ [4, 8, 9] [4, 8] = [] :: [] :: split_occ [9] [4, 8]) :=
  ⟨⟨by decide, C5_split_occ_element_boundaries.2.1 Nat 4 [7] [4, 8] (by decide)⟩,
   ⟨by decide, C5_split_occ_element_boundaries.2.2.1 Nat 7 [4] [4, 8] (by decide)⟩,
   ⟨by decide, by decide,
    C5_split_occ_element_boundaries.2.2.2.1 Nat 4 8 [9] [4, 8]
      (by decide) (by decide)⟩⟩

/-- One step of the pattern scan inside `alcelin::cu::split_occ_seq`'s
loop: compute `tmp = std::search(it, end, pattern)` and update
`(next_it, pattern_size)` only on a strictly earlier match
(`next_it > tmp`). -/
def scan_step {α : Type} [DecidableEq α] (l : List α) (best : Nat × Nat)
    (pattern : List α) : Nat × Nat :=
  let tmp := search l pattern
  if tmp < best.1 then (tmp, pattern.length) else best

/-- Embedding of the pattern scan inside `alcelin::cu::split_occ_seq`'s
loop: fold `scan_step` over the patterns, starting from the initial state
`(ctr.end(), (std::size_t)-1)`. -/
def best_match {α : Type} [DecidableEq α] (l : List α)
    (patterns : List (List α)) : Nat × Nat :=
  patterns.foldl (scan_step l) (l.length, 2 ^ 64 - 1)

/-- Loop of `alcelin::cu::split_occ_seq`: emit the piece before the
selected match and skip the selected pattern's length.  `fuel` bounds the
number of iterations. -/
def split_occ_seq_go {α : Type} [DecidableEq α] (patterns : List (List α)) :
    Nat → List α → List (List α)
  | 0, _ => []
  | fuel + 1, l =>
    if l.isEmpty then []
    else
      let best := best_match l patterns
      let rest := l.drop best.1
      l.take best.1 ::
        (if rest.isEmpty then [] else split_occ_seq_go patterns fuel (rest.drop best.2))

/-- Embedding of `alcelin::cu::split_occ_seq`. -/
def split_occ_seq {α : Type} [DecidableEq α] (ctr : List α)
    (patterns : List (List α)) : List (List α) :=
  split_occ_seq_go patterns (ctr.length + 1) ctr

/-- The earliest match position of any pattern in the suffix `l`, or
`l.length` when no pattern occurs. -/
def minimal_position {α : Type} [DecidableEq α] (l : List α)
    (patterns : List (List α)) : Nat :=
  (patterns.map (search l)).foldr min l.length

/-- Reference selector, stated from the spec's words for the amended
tie-break: pick the earliest-starting match of any pattern; among patterns
matching at that same earliest position, the FIRST one encountered while
scanning the patterns container is selected and its length is the skip;
with no match at all the selector reports the end of the suffix. -/
def spec_select {α : Type} [DecidableEq α] (l : List α)
    (patterns : List (List α)) : Nat × Nat :=
  if minimal_position l patterns < l.length then
    (minimal_position l patterns,
      ((patterns.find? fun pattern =>
        search l pattern == minimal_position l patterns).map
          List.length).getD (2 ^ 64 - 1))
  else (l.length, 2 ^ 64 - 1)

/-- The `split_occ_seq` loop driven by the reference selector
`spec_select` instead of the strict-comparison fold. -/
def split_occ_seq_spec_go {α : Type} [DecidableEq α] (patterns : List (List α)) :
    Nat → List α → List (List α)
  | 0, _ => []
  | fuel + 1, l =>
    if l.isEmpty then []
    else
      let best := spec_select l patterns
      let rest := l.drop best.1
      l.take best.1 ::
        (if rest.isEmpty then []
         else split_occ_seq_spec_go patterns fuel (rest.drop best.2))

/-- Reference splitter: earliest-starting occurrence wins, the first
pattern scanned breaks ties. -/
def split_occ_seq_first_tie {α : Type} [DecidableEq α] (ctr : List α)
    (patterns : List (List α)) : List (List α) :=
  split_occ_seq_spec_go patterns (ctr.length + 1) ctr

/-- Modelled from the claim's reading of the tie-break: a fold that also
updates on an equal match position (`tmp ≤ best`), so that the LAST
pattern encountered during the scan whose position is less than or equal
to the current best is selected. -/
def best_match_last {α : Type} [DecidableEq α] (l : List α)
    (patterns : List (List α)) : Nat × Nat :=
  patterns.foldl
    (fun best pattern =>
      let tmp := search l pattern
      if tmp ≤ best.1 then (tmp, pattern.length) else best)
    (l.length, 2 ^ 64 - 1)

/-- The `split_occ_seq` loop driven by the last-pattern-wins selector of
the claim's tie-break reading. -/
def split_occ_seq_last_go {α : Type} [DecidableEq α] (patterns : List (List α)) :
    Nat → List α → List (List α)
  | 0, _ => []
  | fuel + 1, l =>
    if l.isEmpty then []
    else
      let best := best_match_last l patterns
      let rest := l.drop best.1
      l.take best.1 ::
        (if rest.isEmpty then []
         else split_occ_seq_last_go patterns fuel (rest.drop best.2))

/-- Splitter under the claim's tie-break reading: the last pattern scanned
breaks ties. -/
def split_occ_seq_last_tie {α : Type} [DecidableEq α] (ctr : List α)
    (patterns : List (List α)) : List (List α) :=
  split_occ_seq_last_go patterns (ctr.length + 1) ctr

theorem foldr_min_le (xs : List Nat) (m : Nat) : xs.foldr min m ≤ m := by
  induction xs with
  | nil => simp
  | cons x xs ih => simpa using le_trans (min_le_right x _) ih

theorem foldr_min_base (xs : List Nat) {s m : Nat} (h : s ≤ m) :
    xs.foldr min s = min s (xs.foldr min m) := by
  induction xs with
  | nil => simp [Nat.min_eq_left h]
  | cons x xs ih =>
      simp only [List.foldr_cons, ih]
      rw [min_left_comm]

theorem foldr_min_mem (xs : List Nat) (b : Nat) :
    xs.foldr min b = b ∨ xs.foldr min b ∈ xs := by
  induction xs with
  | nil => exact Or.inl rfl
  | cons x xs ih =>
      rcases min_choice x (xs.foldr min b) with h | h
      · exact Or.inr (by rw [List.foldr_cons, h]; exact List.mem_cons_self x xs)
      · rw [List.foldr_cons, h]
        rcases ih with h' | h'
        · exact Or.inl h'
        · exact Or.inr (List.mem_cons_of_mem x h')

/-- What the strict-comparison scan computes, for an arbitrary fold state:
the minimum match position (capped by the state), paired with the length
of the FIRST pattern attaining it when that minimum strictly improves the
state. -/
theorem scan_foldl_char {α : Type} [DecidableEq α] (l : List α) :
    ∀ (patterns : List (List α)) (m sz : Nat),
      patterns.foldl (scan_step l) (m, sz) =
        if (patterns.map (search l)).foldr min m < m then
          ((patterns.map (search l)).foldr min m,
            ((patterns.find? fun pattern =>
              search l pattern == (patterns.map (search l)).foldr min m).map
                List.length).getD sz)
        else (m, sz) := by
  intro patterns
  induction patterns with
  | nil =>
      intro m sz
      simp
  | cons p t ih =>
      intro m sz
      simp only [List.foldl_cons, List.map_cons, List.foldr_cons]
      by_cases hs : search l p < m
      · rw [show scan_step l (m, sz) p = (search l p, p.length) from by
          simp [scan_step, hs]]
        rw [ih (search l p) p.length]
        have hbase : (t.map (search l)).foldr min (search l p)
            = min (search l p) ((t.map (search l)).foldr min m) :=
          foldr_min_base _ (le_of_lt hs)
        rw [hbase]
        rw [if_pos (lt_of_le_of_lt (min_le_left _ _) hs)]
        by_cases h1 : min (search l p) ((t.map (search l)).foldr min m)
            < search l p
        · rw [if_pos h1]
          have hmin : min (search l p) ((t.map (search l)).foldr min m)
              = (t.map (search l)).foldr min m := by
            rcases min_choice (search l p) ((t.map (search l)).foldr min m)
              with h | h
            · rw [h] at h1
              exact absurd h1 (lt_irrefl _)
            · exact h
          rw [hmin] at h1 ⊢
          rw [List.find?_cons_of_neg _ (by
            simp only [beq_iff_eq]
            exact fun hc => absurd (hc ▸ h1) (lt_irrefl _))]
          have hmem : (t.map (search l)).foldr min m ∈ t.map (search l) := by
            have := foldr_min_mem (t.map (search l)) (search l p)
            rw [hbase, hmin] at this
            rcases this with h' | h'
            · exact absurd (h' ▸ h1) (lt_irrefl _)
            · exact h'
          obtain ⟨q, hq, hq2⟩ := List.mem_map.mp hmem
          have hsome : ((t.find? fun pattern =>
              search l pattern == (t.map (search l)).foldr min m)).isSome :=
            List.find?_isSome.mpr ⟨q, hq, by simp [hq2]⟩
          obtain ⟨r, hr⟩ := Option.isSome_iff_exists.mp hsome
          rw [hr]
          simp
        · rw [if_neg h1]
          have hmin : min (search l p) ((t.map (search l)).foldr min m)
              = search l p :=
            le_antisymm (min_le_left _ _) (not_lt.mp h1)
          rw [hmin]
          rw [List.find?_cons_of_pos _ (by simp)]
          simp
      · rw [show scan_step l (m, sz) p = (m, sz) from by simp [scan_step, hs]]
        rw [ih m sz]
        have hTm : (t.map (search l)).foldr min m ≤ m := foldr_min_le _ _
        have hmin : min (search l p) ((t.map (search l)).foldr min m)
            = (t.map (search l)).foldr min m :=
          min_eq_right (le_trans hTm (not_lt.mp hs))
        rw [hmin]
        by_cases h2 : (t.map (search l)).foldr min m < m
        · rw [if_pos h2, if_pos h2]
          rw [List.find?_cons_of_neg _ (by
            simp only [beq_iff_eq]
            intro hc
            exact absurd (lt_of_lt_of_le h2 (not_lt.mp hs)) (hc ▸ lt_irrefl _))]
        · rw [if_neg h2, if_neg h2]

/-- The fold of the implementation computes exactly the reference
selector: earliest match position, first-scanned pattern breaking ties. -/
theorem best_match_eq_spec_select {α : Type} [DecidableEq α] (l : List α)
    (patterns : List (List α)) :
    best_match l patterns = spec_select l patterns := by
  rw [best_match, scan_foldl_char l patterns l.length (2 ^ 64 - 1)]
  rfl

theorem split_occ_seq_go_eq_spec_go {α : Type} [DecidableEq α]
    (patterns : List (List α)) :
    ∀ (fuel : Nat) (l : List α),
      split_occ_seq_go patterns fuel l = split_occ_seq_spec_go patterns fuel l := by
  intro fuel
  induction fuel with
  | zero => intro l; rfl
  | succ fuel ih =>
      intro l
      simp only [split_occ_seq_go, split_occ_seq_spec_go,
        best_match_eq_spec_select, ih]

/-- C4 counterexample: at `ctr = [1, 2]` with patterns `[[1], [1, 2]]` both
patterns match at the same earliest position `0`, and the code selects the
FIRST pattern scanned (skipping `1` element, yielding `[[], [2]]`), not the
last one as the claim states (which would skip `2` elements and yield
`[[]]`). -/
theorem C4_tie_break_counterexample :
    split_occ_seq ([1, 2] : List Nat) [[1], [1, 2]] = [[], [2]] ∧
    split_occ_seq_last_tie ([1, 2] : List Nat) [[1], [1, 2]] = [[]] ∧
    split_occ_seq ([1, 2] : List Nat) [[1], [1, 2]] ≠
      split_occ_seq_last_tie ([1, 2] : List Nat) [[1], [1, 2]] := by
  decide

/-- C4 (amended): `split_occ_seq` splits at the earliest-starting
occurrence of any pattern, and on ties (two patterns whose matches start
at the same earliest position) the pattern encountered FIRST during the
scan over the patterns container is the one selected (the strict `>`
comparison never updates on an equal position), its length determining how
many elements are skipped past the boundary; the repository's test
scenario is also reproduced. -/
theorem C4_split_occ_seq_earliest_first_tie :
    (∀ (α : Type) [DecidableEq α] (ctr : List α)
        (patterns : List (List α)),
        split_occ_seq ctr patterns = split_occ_seq_first_tie ctr patterns) ∧
    split_occ_seq ([1, 2, 3, 3, 4, 5, 6, 7, 8, 8, 9, 10] : List Nat)
        [[3, 3], [8, 8]] = [[1, 2], [4, 5, 6, 7], [9, 10]] :=
  ⟨fun α _ ctr patterns => split_occ_seq_go_eq_spec_go patterns (ctr.length + 1) ctr,
   by decide⟩

/-! ### Boundless access containers

The mutable `boundless_access` overload returns a reference either into
the container (for an in-range index) or to a function-local `static`
scratch cell that is reset to a default-constructed value on every access.
The observable state is the pair of the container's contents and the
scratch cell; an access yields the updated state together with the
location the returned reference denotes, and reading or assigning through
the reference is interpreted at that location. -/

/-- Observable state of a boundless vector: the underlying `std::vector`
contents together with the shared `static` scratch cell of
`boundless_access`. -/
structure bstate (α : Type) where
  ctr : List α
  scratch : α

/-- The location denoted by the reference returned from the mutable
`boundless_access` overload: a slot of the container, or the scratch
cell. -/
inductive bloc : Type where
  | inside (i : Nat)
  | cell

/-- Embedding of the mutable `boundless_access` overload: the scratch cell
is reset to a default-constructed value on every access; an out-of-range
index yields the scratch cell, an in-range index yields the container
slot. -/
def boundless_access_mut {α : Type} [Inhabited α] (s : bstate α)
    (index : Nat) : bstate α × bloc :=
  let s' : bstate α := { s with scratch := default }
  if index ≥ s'.ctr.length then (s', bloc.cell)
  else (s', bloc.inside index)

/-- Reading through the reference returned by `boundless_access`. -/
def loc_read {α : Type} [Inhabited α] (s : bstate α) : bloc → α
  | bloc.inside i => s.ctr.getD i default
  | bloc.cell => s.scratch

/-- Assigning through the reference returned by `boundless_access`. -/
def loc_write {α : Type} (s : bstate α) (v : α) : bloc → bstate α
  | bloc.inside i => { s with ctr := s.ctr.set i v }
  | bloc.cell => { s with scratch := v }

/-- Embedding of the const `boundless_access` overload: an element copy
for an in-range index, a default-constructed instance otherwise. -/
def boundless_access_const {α : Type} [Inhabited α] (ctr : List α)
    (index : Nat) : α :=
  if index ≥ ctr.length then default
  else ctr.getD index default

/-- `std::size_t` subtraction by one, with wraparound at zero, as used by
`boundless_vector::back` when it computes `size() - 1`. -/
def size_t_sub_one (n : Nat) : Nat :=
  (n + (2 ^ 64 - 1)) % 2 ^ 64

/-- Embedding of `boundless_vector::front`:
`boundless_access(*this, 0)`. -/
def bvec_front {α : Type} [Inhabited α] (s : bstate α) : bstate α × bloc :=
  boundless_access_mut s 0

/-- Embedding of `boundless_vector::back`:
`boundless_access(*this, this->size() - 1)` with `std::size_t`
wraparound. -/
def bvec_back {α : Type} [Inhabited α] (s : bstate α) : bstate α × bloc :=
  boundless_access_mut s (size_t_sub_one s.ctr.length)

/-- C9: reading a boundless container at an out-of-range index returns a
default-constructed element, and writing through the reference obtained at
an out-of-range index changes neither the container's size nor any
in-range element (the container is untouched); at an in-range index both
overloads behave exactly as the underlying plain container (element read,
element store). -/
theorem C9_boundless_access_frame {α : Type} [Inhabited α] (s : bstate α)
    (i : Nat) (v : α) :
    (i ≥ s.ctr.length →
      loc_read (boundless_access_mut s i).1 (boundless_access_mut s i).2
          = default ∧
      (loc_write (boundless_access_mut s i).1 v
          (boundless_access_mut s i).2).ctr = s.ctr ∧
      boundless_access_const s.ctr i = default) ∧
    (i < s.ctr.length →
      loc_read (boundless_access_mut s i).1 (boundless_access_mut s i).2
          = s.ctr.getD i default ∧
      (loc_write (boundless_access_mut s i).1 v
          (boundless_access_mut s i).2).ctr = s.ctr.set i v ∧
      boundless_access_const s.ctr i = s.ctr.getD i default) := by
  constructor
  · intro h
    refine ⟨?_, ?_, ?_⟩
    · rw [boundless_access_mut]
      simp only [if_pos h]
      rfl
    · rw [boundless_access_mut]
      simp only [if_pos h]
      rfl
    · rw [boundless_access_const, if_pos h]
  · intro h
    have h' : ¬ i ≥ s.ctr.length := not_le.mpr h
    refine ⟨?_, ?_, ?_⟩
    · rw [boundless_access_mut]
      simp only [if_neg h']
      rfl
    · rw [boundless_access_mut]
      simp only [if_neg h']
      rfl
    · rw [boundless_access_const, if_neg h']

theorem C9_boundless_access_frame_witness :
    ((5 : Nat) ≥ (⟨[10, 20], 0⟩ : bstate Nat).ctr.length ∧
      loc_read (boundless_access_mut (⟨[10, 20], 0⟩ : bstate Nat) 5).1
          (boundless_access_mut (⟨[10, 20], 0⟩ : bstate Nat) 5).2 = default ∧
      (loc_write (boundless_access_mut (⟨[10, 20], 0⟩ : bstate Nat) 5).1 99
          (boundless_access_mut (⟨[10, 20], 0⟩ : bstate Nat) 5).2).ctr
        = [10, 20] ∧
      boundless_access_const [10, 20] 5 = default) ∧
    ((1 : Nat) < (⟨[10, 20], 0⟩ : bstate Nat).ctr.length ∧
      loc_read (boundless_access_mut (⟨[10, 20], 0⟩ : bstate Nat) 1).1
          (boundless_access_mut (⟨[10, 20], 0⟩ : bstate Nat) 1).2
        = ([10, 20] : List Nat).getD 1 default ∧
      (loc_write (boundless_access_mut (⟨[10, 20], 0⟩ : bstate Nat) 1).1 99
          (boundless_access_mut (⟨[10, 20], 0⟩ : bstate Nat) 1).2).ctr
        = ([10, 20] : List Nat).set 1 99 ∧
      boundless_access_const [10, 20] 1 = ([10, 20] : List Nat).getD 1 default) :=
  ⟨⟨by decide,
    (C9_boundless_access_frame (⟨[10, 20], 0⟩ : bstate Nat) 5 99).1 (by decide)⟩,
   ⟨by decide,
    (C9_boundless_access_frame (⟨[10, 20], 0⟩ : bstate Nat) 1 99).2 (by decide)⟩⟩

/-- C10: on an empty boundless vector, `front()` and `back()` both return
a default-constructed element and never touch out-of-bounds storage:
`back()` computes `size() - 1`, which for `size() == 0` wraps around to
the maximum `std::size_t` value, is therefore out of range, and is handled
by the scratch-cell branch of `boundless_access`; the container itself is
untouched by either access. -/
theorem C10_empty_front_back {α : Type} [Inhabited α] (s : bstate α)
    (h : s.ctr = []) :
    size_t_sub_one s.ctr.length = 2 ^ 64 - 1 ∧
    s.ctr.length ≤ 2 ^ 64 - 1 ∧
    (bvec_back s).2 = bloc.cell ∧
    loc_read (bvec_back s).1 (bvec_back s).2 = default ∧
    (bvec_back s).1.ctr = s.ctr ∧
    (bvec_front s).2 = bloc.cell ∧
    loc_read (bvec_front s).1 (bvec_front s).2 = default ∧
    (bvec_front s).1.ctr = s.ctr := by
  have hlen : s.ctr.length = 0 := by rw [h]; rfl
  have hsub : size_t_sub_one s.ctr.length = 2 ^ 64 - 1 := by
    rw [hlen, size_t_sub_one, Nat.zero_add, Nat.mod_eq_of_lt (by norm_num)]
  have hge : size_t_sub_one s.ctr.length ≥ s.ctr.length := by
    rw [hsub, hlen]
    exact Nat.zero_le _
  have hge0 : (0 : Nat) ≥ s.ctr.length := by
    rw [hlen]
  refine ⟨hsub, by rw [hlen]; exact Nat.zero_le _, ?_, ?_, ?_, ?_, ?_, ?_⟩
  · rw [bvec_back, boundless_access_mut]
    simp only [if_pos hge]
  · rw [bvec_back, boundless_access_mut]
    simp only [if_pos hge]
    rfl
  · rw [bvec_back, boundless_access_mut]
    simp only [if_pos hge]
  · rw [bvec_front, boundless_access_mut]
    simp only [if_pos hge0]
  · rw [bvec_front, boundless_access_mut]
    simp only [if_pos hge0]
    rfl
  · rw [bvec_front, boundless_access_mut]
    simp only [if_pos hge0]

theorem C10_empty_front_back_witness :
    (⟨[], 0⟩ : bstate Nat).ctr = [] ∧
    (size_t_sub_one (⟨[], 0⟩ : bstate Nat).ctr.length = 2 ^ 64 - 1 ∧
      (bvec_back (⟨[], 0⟩ : bstate Nat)).2 = bloc.cell ∧
      loc_read (bvec_back (⟨[], 0⟩ : bstate Nat)).1
        (bvec_back (⟨[], 0⟩ : bstate Nat)).2 = default ∧
      (bvec_front (⟨[], 0⟩ : bstate Nat)).2 = bloc.cell ∧
      loc_read (bvec_front (⟨[], 0⟩ : bstate Nat)).1
        (bvec_front (⟨[], 0⟩ : bstate Nat)).2 = default) := by
  have h := C10_empty_front_back (⟨[], 0⟩ : bstate Nat) rfl
  exact ⟨rfl, h.1, h.2.2.1, h.2.2.2.1, h.2.2.2.2.2.1, h.2.2.2.2.2.2.1⟩

end alcelin
